import Mathlib

/-!
Verification of the do-it-yourself graph-convolution layers of the NORA 2024
geometric-deep-learning practicals ("Graph Neural Networks-solution.ipynb").

The notebook defines, over a fixed graph with dense adjacency matrix:

* a raw-sum `GCNLayer`: `forward(x) = linear(A @ x)`;
* a symmetric-normalized `GCNLayer` whose constructor builds
  `adj_norm = D^(-1/2) @ (adj + I) @ D^(-1/2)` where
  `D^(-1/2) = torch.inverse(torch.sqrt(torch.diag(adj.sum(axis=1))))`
  is taken from the globally bound `adj` (and, notably, from `adj` itself,
  not from `adj + I`);
* a graph-level pooling step `torch.concat([extract(x, idx, ptr) ...])` where
  `extract` sums the rows of a half-open slice of the batched node matrix.

Tensors of reals are modelled as Mathlib matrices over `ℝ` (for the layers)
and as `ℕ`-indexed families of rows with an explicit row count (for the
batched pooling, whose failure modes are index errors).  Fallible torch
operations (`torch.inverse` on a singular matrix, `narrow` with a bad range,
`torch.concat` on an empty list) are modelled with `Option`.
-/

namespace GDL

open Matrix

/-- A `torch.nn.Linear(din, dout)` module: a weight of shape `dout × din`
(torch stores the transpose of the mathematical weight) and a bias vector. -/
structure Linear (din dout : ℕ) where
  weight : Matrix (Fin dout) (Fin din) ℝ
  bias : Fin dout → ℝ

/-- Broadcasting a bias vector over `n` rows, as torch does when applying
`nn.Linear` to a batch of row vectors. -/
def biasRow (n : ℕ) {dout : ℕ} (b : Fin dout → ℝ) : Matrix (Fin n) (Fin dout) ℝ :=
  Matrix.of fun _ j => b j

/-- Applying `nn.Linear`: `x @ weight.T + bias` (bias broadcast over rows). -/
def Linear.apply {n din dout : ℕ} (l : Linear din dout) (x : Matrix (Fin n) (Fin din) ℝ) :
    Matrix (Fin n) (Fin dout) ℝ :=
  x * l.weightᵀ + biasRow n l.bias

/-- The first (raw-sum) `GCNLayer` of the notebook: it stores the adjacency
matrix `A` passed to `__init__` and an `nn.Linear(input_dim, output_dim)`. -/
structure GCNLayer (n din dout : ℕ) where
  A : Matrix (Fin n) (Fin n) ℝ
  linear : Linear din dout

/-- `GCNLayer.forward`: `x = torch.matmul(self.A, x); x = self.linear(x)`. -/
def GCNLayer.forward {n din dout : ℕ} (L : GCNLayer n din dout)
    (x : Matrix (Fin n) (Fin din) ℝ) : Matrix (Fin n) (Fin dout) ℝ :=
  L.linear.apply (L.A * x)

/-- Row sums `adj.sum(axis=1)` of an adjacency matrix. -/
def rowDeg {n : ℕ} (adj : Matrix (Fin n) (Fin n) ℝ) (i : Fin n) : ℝ :=
  ∑ j, adj i j

/-- The diagonal matrix
`self.degree = torch.inverse(torch.sqrt(torch.diag(adj.sum(axis=1))))`,
in the case where `torch.inverse` succeeds: the inverse of the diagonal
matrix of square roots of the row sums of `adj` is the diagonal matrix of
their reciprocals.  Note that the notebook takes the row sums of `adj`
itself, before self-loops are added. -/
noncomputable def degree {n : ℕ} (adj : Matrix (Fin n) (Fin n) ℝ) :
    Matrix (Fin n) (Fin n) ℝ :=
  Matrix.diagonal fun i => (Real.sqrt (rowDeg adj i))⁻¹

/-- Whether `torch.inverse(torch.sqrt(torch.diag(adj.sum(axis=1))))`
succeeds: a diagonal matrix is invertible exactly when all of its diagonal
entries are nonzero; on a singular input `torch.inverse` raises. -/
def degInvertible {n : ℕ} (adj : Matrix (Fin n) (Fin n) ℝ) : Prop :=
  ∀ i, Real.sqrt (rowDeg adj i) ≠ 0

/-- The normalized adjacency
`self.adj_norm = self.degree @ (adj + torch.eye(n)) @ self.degree`
built by the second (normalized) `GCNLayer.__init__`. -/
noncomputable def normAdjRaw {n : ℕ} (adj : Matrix (Fin n) (Fin n) ℝ) :
    Matrix (Fin n) (Fin n) ℝ :=
  degree adj * (adj + 1) * degree adj

/-- The full normalized-adjacency computation of the second
`GCNLayer.__init__`, including the possibility that `torch.inverse` raises
on a singular matrix (modelled as `none`). -/
noncomputable def mkNormAdj {n : ℕ} (adj : Matrix (Fin n) (Fin n) ℝ) :
    Option (Matrix (Fin n) (Fin n) ℝ) :=
  open Classical in
  if degInvertible adj then some (normAdjRaw adj) else none

/-- The second (normalized) `GCNLayer` of the notebook: it stores the
constructor argument `A`, the computed `adj_norm` and an `nn.Linear`. -/
structure GCNLayerNorm (n din dout : ℕ) where
  A : Matrix (Fin n) (Fin n) ℝ
  adj_norm : Matrix (Fin n) (Fin n) ℝ
  linear : Linear din dout

/-- The normalized `GCNLayer.__init__`: the argument `A` is stored as
`self.A` and used only for the shape of `torch.eye(A.shape[0])` (carried by
the type index `n` here), while `adj_norm` is built from the globally bound
`adj`, the second argument below.  `none` models `torch.inverse` raising. -/
noncomputable def mkGCNLayerNorm {n din dout : ℕ} (A adj : Matrix (Fin n) (Fin n) ℝ)
    (linear : Linear din dout) : Option (GCNLayerNorm n din dout) :=
  (mkNormAdj adj).map fun N => ⟨A, N, linear⟩

/-- The normalized `GCNLayer.forward`:
`x = torch.matmul(self.adj_norm, x); x = self.linear(x)`. -/
def GCNLayerNorm.forward {n din dout : ℕ} (L : GCNLayerNorm n din dout)
    (x : Matrix (Fin n) (Fin din) ℝ) : Matrix (Fin n) (Fin dout) ℝ :=
  L.linear.apply (L.adj_norm * x)

/-- The spec's formula for the normalized adjacency:
`D^(-1/2) (A+I) D^(-1/2)` where `D` is the diagonal degree matrix of `A+I`,
that is, `D[i][i] = Σ_j (A+I)[i][j]`.  Stated for comparison with
`normAdjRaw`, which is what the notebook computes. -/
noncomputable def normAdjSpec {n : ℕ} (A : Matrix (Fin n) (Fin n) ℝ) :
    Matrix (Fin n) (Fin n) ℝ :=
  Matrix.diagonal (fun i => (Real.sqrt (rowDeg (A + 1) i))⁻¹) * (A + 1) *
    Matrix.diagonal (fun i => (Real.sqrt (rowDeg (A + 1) i))⁻¹)

/-- Modelled from the spec: `to_dense_adj` is a `torch_geometric` library
call whose source is not part of this repository.  Per the spec's data
model, the dense adjacency has `A[i][j] = 1` if edge `(i,j)` (or `(j,i)`)
occurs in the edge list and `0` otherwise, entries saturating at `1`. -/
def to_dense_adj (n : ℕ) (edges : List (ℕ × ℕ)) : Matrix (Fin n) (Fin n) ℝ :=
  Matrix.of fun i j =>
    if (i.val, j.val) ∈ edges ∨ (j.val, i.val) ∈ edges then 1 else 0

/- Helper lemmas about the normalized adjacency. -/

/-- Entries of the computed normalized adjacency. -/
theorem normAdjRaw_apply {n : ℕ} (adj : Matrix (Fin n) (Fin n) ℝ) (i j : Fin n) :
    normAdjRaw adj i j =
      (Real.sqrt (rowDeg adj i))⁻¹ * (adj + 1) i j * (Real.sqrt (rowDeg adj j))⁻¹ := by
  simp [normAdjRaw, degree, Matrix.mul_diagonal, Matrix.diagonal_mul]

/-- Entries of the spec's normalized adjacency. -/
theorem normAdjSpec_apply {n : ℕ} (A : Matrix (Fin n) (Fin n) ℝ) (i j : Fin n) :
    normAdjSpec A i j =
      (Real.sqrt (rowDeg (A + 1) i))⁻¹ * (A + 1) i j * (Real.sqrt (rowDeg (A + 1) j))⁻¹ := by
  simp [normAdjSpec, Matrix.mul_diagonal, Matrix.diagonal_mul]

theorem inv_sqrt_mul_inv_sqrt {a : ℝ} (ha : 0 ≤ a) :
    (Real.sqrt a)⁻¹ * (Real.sqrt a)⁻¹ = a⁻¹ := by
  rw [← mul_inv, Real.mul_self_sqrt ha]

/- Concrete graphs used as witnesses and failing inputs. -/

/-- The 2-node graph with the single undirected edge `(0,1)`. -/
def pathA : Matrix (Fin 2) (Fin 2) ℝ := !![0, 1; 1, 0]

theorem rowDeg_pathA (i : Fin 2) : rowDeg pathA i = 1 := by
  fin_cases i <;> simp [rowDeg, pathA, Fin.sum_univ_two]

theorem degInvertible_pathA : degInvertible pathA := by
  intro i
  rw [rowDeg_pathA, Real.sqrt_one]
  norm_num

/-- C1: the normalized-adjacency builder takes degrees from `A`, not from
`A + I`.  On the single-edge two-node graph the code yields `Â[0][0] = 1`
(degrees `1`), while the spec's `D^(-1/2)(A+I)D^(-1/2)` with `D` the degree
matrix of `A+I` yields `1/2` (degrees `2`). -/
theorem C1_degree_divergence :
    mkNormAdj pathA = some (normAdjRaw pathA) ∧
      normAdjRaw pathA 0 0 = 1 ∧ normAdjSpec pathA 0 0 = 1 / 2 := by
  refine ⟨?_, ?_, ?_⟩
  · rw [mkNormAdj, if_pos degInvertible_pathA]
  · rw [normAdjRaw_apply, rowDeg_pathA, Real.sqrt_one]
    norm_num [pathA, Matrix.add_apply, Matrix.one_apply]
  · rw [normAdjSpec_apply]
    have hdeg : ∀ i : Fin 2, rowDeg (pathA + 1) i = 2 := by
      intro i
      fin_cases i <;>
        simp [rowDeg, pathA, Fin.sum_univ_two, Matrix.add_apply, Matrix.one_apply] <;>
        norm_num
    rw [hdeg]
    have h2 : (Real.sqrt 2)⁻¹ * (Real.sqrt 2)⁻¹ = (2 : ℝ)⁻¹ :=
      inv_sqrt_mul_inv_sqrt (by norm_num)
    have hA : (pathA + 1) 0 0 = 1 := by
      norm_num [pathA, Matrix.add_apply, Matrix.one_apply]
    rw [hA, mul_one, h2]
    norm_num

/-- C3: the raw-sum layer's forward output is exactly `(A · X) · W`, where
`W = weightᵀ` is the spec's `input_dim × output_dim` weight matrix, whenever
the bias is zero (the spec's formula `H = (A · X) · W` carries no bias
term). -/
theorem C3_raw_forward_eq {n din dout : ℕ} (L : GCNLayer n din dout)
    (X : Matrix (Fin n) (Fin din) ℝ) (hb : L.linear.bias = 0) :
    L.forward X = L.A * X * L.linear.weightᵀ := by
  have hzero : biasRow n (0 : Fin dout → ℝ) = 0 := rfl
  rw [GCNLayer.forward, Linear.apply, hb, hzero, add_zero]

/-- Witness for C3 at a concrete one-node graph with concrete weights. -/
theorem C3_witness :
    (GCNLayer.mk !![(2 : ℝ)] ⟨!![(3 : ℝ)], 0⟩).forward !![(5 : ℝ)] =
      !![(2 : ℝ)] * !![(5 : ℝ)] * !![(3 : ℝ)]ᵀ :=
  C3_raw_forward_eq (GCNLayer.mk !![(2 : ℝ)] ⟨!![(3 : ℝ)], 0⟩) !![(5 : ℝ)] rfl

/-- C4: contrary to the claim, constructing the normalized layer does not
succeed on every graph: for the one-node graph with no edges the degree is
taken from `A` (without self-loops), so the matrix handed to `torch.inverse`
is singular and the constructor raises. -/
theorem C4_isolated_node_fails :
    mkNormAdj (0 : Matrix (Fin 1) (Fin 1) ℝ) = none := by
  rw [mkNormAdj, if_neg]
  intro h
  have h0 := h 0
  apply h0
  have : rowDeg (0 : Matrix (Fin 1) (Fin 1) ℝ) 0 = 0 := by
    simp [rowDeg]
  rw [this, Real.sqrt_zero]

/-- The 5-node ring graph with edges
`[(0,1),(1,2),(2,3),(3,4),(4,0)]`, stored symmetrically. -/
def ringA : Matrix (Fin 5) (Fin 5) ℝ :=
  !![0, 1, 0, 0, 1;
     1, 0, 1, 0, 0;
     0, 1, 0, 1, 0;
     0, 0, 1, 0, 1;
     1, 0, 0, 1, 0]

/-- The uniform feature matrix `X = ones(5, 1)`. -/
def onesX : Matrix (Fin 5) (Fin 1) ℝ := Matrix.of fun _ _ => 1

/-- The identity-like `nn.Linear(1, 1)` with unit weight and zero bias. -/
def idLin : Linear 1 1 := ⟨1, 0⟩

theorem rowDeg_ringA (i : Fin 5) : rowDeg ringA i = 2 := by
  fin_cases i <;> norm_num [rowDeg, ringA, Fin.sum_univ_five]

theorem degInvertible_ringA : degInvertible ringA := by
  intro i
  rw [rowDeg_ringA]
  positivity

/-- C2: on the 5-ring with `X = ones(5,1)` and identity-like weights, the
raw-sum layer outputs `2` in every row (as the claim states), but the
normalized layer outputs `3/2` in every row, not `1`: the code divides by
the square roots of the pre-self-loop degrees (`2` per node), not the
post-self-loop degrees (`3` per node) that the claim uses. -/
theorem C2_ring_scenario :
    (GCNLayer.mk ringA idLin).forward onesX = Matrix.of (fun _ _ => (2 : ℝ)) ∧
      mkGCNLayerNorm ringA ringA idLin =
        some (GCNLayerNorm.mk ringA (normAdjRaw ringA) idLin) ∧
      (GCNLayerNorm.mk ringA (normAdjRaw ringA) idLin).forward onesX =
        Matrix.of (fun _ _ => (3 / 2 : ℝ)) := by
  refine ⟨?_, ?_, ?_⟩
  · rw [GCNLayer.forward, Linear.apply]
    have hb : biasRow 5 (idLin.bias) = 0 := rfl
    have hw : idLin.weightᵀ = 1 := Matrix.transpose_one
    rw [hb, add_zero, hw, Matrix.mul_one]
    ext i j
    rw [Matrix.mul_apply]
    simp only [onesX, Matrix.of_apply, mul_one]
    exact rowDeg_ringA i
  · rw [mkGCNLayerNorm, mkNormAdj, if_pos degInvertible_ringA]
    rfl
  · rw [GCNLayerNorm.forward, Linear.apply]
    have hb : biasRow 5 (idLin.bias) = 0 := rfl
    have hw : idLin.weightᵀ = 1 := Matrix.transpose_one
    rw [hb, add_zero, hw, Matrix.mul_one]
    ext i j
    rw [Matrix.mul_apply]
    have h2 : (Real.sqrt 2)⁻¹ * (Real.sqrt 2)⁻¹ = (2 : ℝ)⁻¹ :=
      inv_sqrt_mul_inv_sqrt (by norm_num)
    have hentry : ∀ a b : Fin 5,
        normAdjRaw ringA a b = (Real.sqrt 2)⁻¹ * (ringA + 1) a b * (Real.sqrt 2)⁻¹ := by
      intro a b
      rw [normAdjRaw_apply, rowDeg_ringA, rowDeg_ringA]
    have hone : ∑ k, (1 : Matrix (Fin 5) (Fin 5) ℝ) i k = 1 := by
      simp [Matrix.one_apply]
    have hrow : ∑ k, (ringA + 1) i k = 3 := by
      have hsplit : ∑ k, (ringA + 1) i k =
          (∑ k, ringA i k) + ∑ k, (1 : Matrix (Fin 5) (Fin 5) ℝ) i k := by
        simp [Matrix.add_apply, Finset.sum_add_distrib]
      rw [hsplit, hone]
      have hdeg : ∑ k, ringA i k = 2 := rowDeg_ringA i
      rw [hdeg]
      norm_num
    have hsum : ∑ k, normAdjRaw ringA i k * onesX k j =
        (Real.sqrt 2)⁻¹ * (∑ k, (ringA + 1) i k) * (Real.sqrt 2)⁻¹ := by
      simp only [hentry, onesX, Matrix.of_apply, mul_one, Finset.sum_mul, Finset.mul_sum]
    rw [hsum, hrow]
    have hcomm : (Real.sqrt 2)⁻¹ * 3 * (Real.sqrt 2)⁻¹ =
        ((Real.sqrt 2)⁻¹ * (Real.sqrt 2)⁻¹) * 3 := by ring
    rw [Matrix.of_apply, hcomm, h2]
    norm_num

/-- C6: duplicating any edge anywhere in the edge list leaves the dense
adjacency matrix unchanged (entries saturate at 1). -/
theorem C6_dup_edge_invariant (n : ℕ) (l1 l2 : List (ℕ × ℕ)) (e : ℕ × ℕ) :
    to_dense_adj n (l1 ++ e :: e :: l2) = to_dense_adj n (l1 ++ e :: l2) := by
  have hmem : ∀ x : ℕ × ℕ, x ∈ l1 ++ e :: e :: l2 ↔ x ∈ l1 ++ e :: l2 := by
    intro x
    simp only [List.mem_append, List.mem_cons]
    tauto
  ext i j
  simp only [to_dense_adj, Matrix.of_apply, hmem]

/-
The graph-level pooling.  The batched node matrix is modelled as a family
`X : ℕ → ℕ → ℝ` of rows together with an explicit row count `n`
(`x.shape[0]`); rows at indices `≥ n` are never read by a successful
operation.  Batch pointers are natural numbers (`data.ptr` entries are
nonnegative).
-/

/-- `x.narrow(0, start, len).sum(axis=0)`: the elementwise sum of rows
`start, ..., start+len-1` of a matrix with `n` rows.  `torch.narrow` raises
unless the requested range fits, i.e. `start + len ≤ n`. -/
def narrowSum (n : ℕ) (X : ℕ → ℕ → ℝ) (start len : ℕ) : Option (ℕ → ℝ) :=
  if start + len ≤ n then
    some (fun j => ∑ i ∈ Finset.Ico start (start + len), X i j)
  else none

/-- `extract(x, idx, slices)` from the notebook:
`start, end = int(slices[idx]), int(slices[idx+1])` followed by
`x.narrow(0, start, end-start).sum(axis=0)`.  In Python a negative length
`end - start` makes `narrow` raise; with `ℕ` pointers this is the
`stop < start` branch. -/
def extract (n : ℕ) (X : ℕ → ℕ → ℝ) (idx : ℕ) (slices : List ℕ) : Option (ℕ → ℝ) :=
  if slices.getD idx 0 ≤ slices.getD (idx + 1) 0 then
    narrowSum n X (slices.getD idx 0) (slices.getD (idx + 1) 0 - slices.getD idx 0)
  else none

/-- The list comprehension
`[extract(x, idx, ptr) for idx in range(len(ptr)-1)]` over a given index
list, propagating any failure. -/
def runExtracts (n : ℕ) (X : ℕ → ℕ → ℝ) (slices : List ℕ) :
    List ℕ → Option (List (ℕ → ℝ))
  | [] => some []
  | k :: ks =>
    match extract n X k slices, runExtracts n X slices ks with
    | some r, some rs => some (r :: rs)
    | _, _ => none

/-- The pooling step of the graph-level `GNN.forward`:
`torch.concat([extract(x, idx, ptr) for idx in range(len(ptr)-1)], axis=0)`.
`torch.concat` raises on an empty tensor list, hence the empty-list
branch. -/
def pooled (n : ℕ) (X : ℕ → ℕ → ℝ) (ptr : List ℕ) : Option (List (ℕ → ℝ)) :=
  (runExtracts n X ptr (List.range (ptr.length - 1))).bind
    fun rows => if rows.isEmpty then none else some rows

/-- C5 counterexample: for an empty batch (`B = 0`, `ptr = [0]`, zero
nodes) the pooling raises (`torch.concat` receives an empty list) instead
of returning an output with `B = 0` rows. -/
theorem C5_counterexample : pooled 0 (fun _ _ => (0 : ℝ)) [0] = none := by
  rfl

/- Support lemmas for the pooling proofs. -/

theorem getD_chain (ptr : List ℕ) (B : ℕ)
    (hmono : ∀ k, k < B → ptr.getD k 0 ≤ ptr.getD (k + 1) 0) :
    ∀ l, l ≤ B → ∀ k, k ≤ l → ptr.getD k 0 ≤ ptr.getD l 0 := by
  intro l
  induction l with
  | zero =>
    intro _ k hk
    rw [Nat.le_zero.mp hk]
  | succ m ih =>
    intro hlB k hk
    by_cases hk2 : k = m + 1
    · rw [hk2]
    · have hkm : k ≤ m := Nat.lt_succ_iff.mp (Nat.lt_of_le_of_ne hk hk2)
      exact le_trans (ih (Nat.le_of_succ_le hlB) k hkm) (hmono m (Nat.lt_of_succ_le hlB))

theorem extract_eq_of_le (n : ℕ) (X : ℕ → ℕ → ℝ) (slices : List ℕ) (k : ℕ)
    (hss : slices.getD k 0 ≤ slices.getD (k + 1) 0)
    (hn : slices.getD (k + 1) 0 ≤ n) :
    extract n X k slices =
      some (fun j => ∑ i ∈ Finset.Ico (slices.getD k 0) (slices.getD (k + 1) 0), X i j) := by
  rw [extract, if_pos hss, narrowSum]
  rw [Nat.add_sub_cancel' hss, if_pos hn]

theorem extract_none_of_desc (n : ℕ) (X : ℕ → ℕ → ℝ) (slices : List ℕ) (k : ℕ)
    (h : slices.getD (k + 1) 0 < slices.getD k 0) :
    extract n X k slices = none := by
  rw [extract, if_neg (not_le.mpr h)]

theorem extract_none_of_start_oob (n : ℕ) (X : ℕ → ℕ → ℝ) (slices : List ℕ) (k : ℕ)
    (h : n < slices.getD k 0) :
    extract n X k slices = none := by
  rw [extract]
  by_cases hle : slices.getD k 0 ≤ slices.getD (k + 1) 0
  · have hguard : ¬ (slices.getD k 0 + (slices.getD (k + 1) 0 - slices.getD k 0) ≤ n) := by
      intro hc
      exact absurd (le_trans (Nat.le_add_right _ _) hc) (not_le.mpr h)
    rw [if_pos hle, narrowSum, if_neg hguard]
  · rw [if_neg hle]

theorem extract_none_of_stop_oob (n : ℕ) (X : ℕ → ℕ → ℝ) (slices : List ℕ) (k : ℕ)
    (h : n < slices.getD (k + 1) 0) :
    extract n X k slices = none := by
  rw [extract]
  by_cases hle : slices.getD k 0 ≤ slices.getD (k + 1) 0
  · have hguard : ¬ (slices.getD k 0 + (slices.getD (k + 1) 0 - slices.getD k 0) ≤ n) := by
      rw [Nat.add_sub_cancel' hle]
      exact not_le.mpr h
    rw [if_pos hle, narrowSum, if_neg hguard]
  · rw [if_neg hle]

theorem runExtracts_eq_map (n : ℕ) (X : ℕ → ℕ → ℝ) (slices : List ℕ) (g : ℕ → ℕ → ℝ) :
    ∀ l : List ℕ, (∀ k ∈ l, extract n X k slices = some (g k)) →
      runExtracts n X slices l = some (l.map g) := by
  intro l
  induction l with
  | nil => intro _; rfl
  | cons a t ih =>
    intro h
    simp only [runExtracts]
    rw [h a (List.mem_cons_self a t), ih fun k hk => h k (List.mem_cons_of_mem a hk)]
    rfl

theorem runExtracts_eq_none (n : ℕ) (X : ℕ → ℕ → ℝ) (slices : List ℕ) (k : ℕ)
    (hk : extract n X k slices = none) :
    ∀ l : List ℕ, k ∈ l → runExtracts n X slices l = none := by
  intro l
  induction l with
  | nil => intro h; exact absurd h (List.not_mem_nil k)
  | cons a t ih =>
    intro h
    rcases List.mem_cons.mp h with heq | hmem
    · cases hrec : runExtracts n X slices t <;>
        simp only [runExtracts, ← heq, hk, hrec]
    · cases hex : extract n X a slices <;>
        simp only [runExtracts, hex, ih hmem]

/-- C5 (amended to batches of at least one graph): for a monotone boundary
array `ptr` of length `B+1` with `ptr[0] = 0` and `ptr[B] = n` the total
node count, and `B ≥ 1`, the pooled output has `B` rows and row `k` is the
elementwise sum of rows `ptr[k], ..., ptr[k+1]-1` of `X`. -/
theorem C5_pooled_rows (X : ℕ → ℕ → ℝ) (n B : ℕ) (ptr : List ℕ)
    (hlen : ptr.length = B + 1) (hB : 1 ≤ B)
    (hmono : ∀ k, k < B → ptr.getD k 0 ≤ ptr.getD (k + 1) 0)
    (hfirst : ptr.getD 0 0 = 0) (hlast : ptr.getD B 0 = n) :
    ∃ rows, pooled n X ptr = some rows ∧ rows.length = B ∧
      ∀ k, k < B → rows.getD k (fun _ => 0) =
        fun j => ∑ i ∈ Finset.Ico (ptr.getD k 0) (ptr.getD (k + 1) 0), X i j := by
  set g : ℕ → ℕ → ℝ :=
    fun k => fun j => ∑ i ∈ Finset.Ico (ptr.getD k 0) (ptr.getD (k + 1) 0), X i j with hg
  have hext : ∀ k ∈ List.range B, extract n X k ptr = some (g k) := by
    intro k hkmem
    have hk : k < B := List.mem_range.mp hkmem
    refine extract_eq_of_le n X ptr k (hmono k hk) ?_
    calc ptr.getD (k + 1) 0 ≤ ptr.getD B 0 :=
          getD_chain ptr B hmono B le_rfl (k + 1) hk
      _ = n := hlast
  have hrun : runExtracts n X ptr (List.range (ptr.length - 1)) =
      some ((List.range B).map g) := by
    rw [hlen, Nat.add_sub_cancel]
    exact runExtracts_eq_map n X ptr g (List.range B) hext
  refine ⟨(List.range B).map g, ?_, ?_, ?_⟩
  · rw [pooled, hrun]
    have hne : ¬ ((List.range B).map g).isEmpty := by
      simp [List.isEmpty_iff, List.map_eq_nil_iff, List.range_eq_nil]
      omega
    simp [hne]
  · simp
  · intro k hk
    rw [List.getD_eq_getElem?_getD, List.getElem?_map, List.getElem?_range hk]
    rfl

/-- Witness for the amended C5 at `ptr = [0, 2, 5]` and a concrete `X` with
5 rows: the pooled output has two rows, row 0 summing rows 0-1 and row 1
summing rows 2-4. -/
theorem C5_witness :
    ∃ rows, pooled 5 (fun i _ => (i : ℝ)) [0, 2, 5] = some rows ∧ rows.length = 2 ∧
      ∀ k, k < 2 → rows.getD k (fun _ => 0) =
        fun j => ∑ i ∈ Finset.Ico (([0, 2, 5] : List ℕ).getD k 0)
          (([0, 2, 5] : List ℕ).getD (k + 1) 0), (fun i _ => (i : ℝ)) i j :=
  C5_pooled_rows (fun i _ => (i : ℝ)) 5 2 [0, 2, 5] rfl (by norm_num)
    (by decide) rfl rfl

/-- C9: pooling fails with no partial result whenever the boundary array is
not monotone or some batch pointer exceeds the number of rows of `X`. -/
theorem C9_pooled_fails (X : ℕ → ℕ → ℝ) (n : ℕ) (ptr : List ℕ)
    (h : (∃ k, k + 1 < ptr.length ∧ ptr.getD (k + 1) 0 < ptr.getD k 0) ∨
         (∃ k, k < ptr.length ∧ n < ptr.getD k 0)) :
    pooled n X ptr = none := by
  rcases h with ⟨k, hk, hdesc⟩ | ⟨k, hk, hoob⟩
  · have hmem : k ∈ List.range (ptr.length - 1) := List.mem_range.mpr (by omega)
    have hrun := runExtracts_eq_none n X ptr k
      (extract_none_of_desc n X ptr k hdesc) (List.range (ptr.length - 1)) hmem
    rw [pooled, hrun]
    rfl
  · cases hlen1 : ptr.length - 1 with
    | zero =>
      rw [pooled, hlen1]
      rfl
    | succ m =>
      by_cases hkm : k < m + 1
      · have hmem : k ∈ List.range (ptr.length - 1) := by
          rw [hlen1]; exact List.mem_range.mpr hkm
        have hrun := runExtracts_eq_none n X ptr k
          (extract_none_of_start_oob n X ptr k hoob) (List.range (ptr.length - 1)) hmem
        rw [pooled, hrun]
        rfl
      · have hkeq : k = m + 1 := by omega
        have hmem : m ∈ List.range (ptr.length - 1) := by
          rw [hlen1]; exact List.mem_range.mpr (Nat.lt_succ_self m)
        have hoobm : n < ptr.getD (m + 1) 0 := by rw [← hkeq]; exact hoob
        have hrun := runExtracts_eq_none n X ptr m
          (extract_none_of_stop_oob n X ptr m hoobm) (List.range (ptr.length - 1)) hmem
        rw [pooled, hrun]
        rfl

/-- Witness for C9: `ptr = [0, 3, 2]` is not monotone, so pooling a 5-row
batch fails. -/
theorem C9_witness : pooled 5 (fun _ _ => (1 : ℝ)) [0, 3, 2] = none :=
  C9_pooled_fails (fun _ _ => (1 : ℝ)) 5 [0, 3, 2]
    (Or.inl ⟨1, by norm_num, by decide⟩)

/- Permutations of node indices. -/

/-- The permutation matrix of `σ`: `P[i][j] = 1` iff `j = σ i`, so that
`P * X` permutes the rows of `X` by `σ` and `P * A * Pᵀ` conjugates an
adjacency matrix by the node relabelling `σ`. -/
def permMatrix {n : ℕ} (σ : Equiv.Perm (Fin n)) : Matrix (Fin n) (Fin n) ℝ :=
  Matrix.of fun i j => if σ i = j then 1 else 0

theorem permMatrix_mul {n m : ℕ} (σ : Equiv.Perm (Fin n)) (M : Matrix (Fin n) (Fin m) ℝ) :
    permMatrix σ * M = M.submatrix ⇑σ id := by
  ext i j
  rw [Matrix.mul_apply]
  simp [permMatrix, ite_mul, one_mul, zero_mul, Finset.sum_ite_eq]

theorem mul_permMatrix_transpose {n m : ℕ} (σ : Equiv.Perm (Fin n))
    (M : Matrix (Fin m) (Fin n) ℝ) :
    M * (permMatrix σ)ᵀ = M.submatrix id ⇑σ := by
  ext i j
  rw [Matrix.mul_apply]
  simp [permMatrix, Matrix.transpose_apply, mul_ite, mul_one, mul_zero, Finset.sum_ite_eq]

theorem conj_permMatrix {n : ℕ} (σ : Equiv.Perm (Fin n)) (A : Matrix (Fin n) (Fin n) ℝ) :
    permMatrix σ * A * (permMatrix σ)ᵀ = A.submatrix ⇑σ ⇑σ := by
  rw [permMatrix_mul, mul_permMatrix_transpose]
  simp [Matrix.submatrix_submatrix]

theorem rowDeg_submatrix {n : ℕ} (σ : Equiv.Perm (Fin n)) (A : Matrix (Fin n) (Fin n) ℝ)
    (i : Fin n) : rowDeg (A.submatrix ⇑σ ⇑σ) i = rowDeg A (σ i) := by
  unfold rowDeg
  simp only [Matrix.submatrix_apply]
  exact Equiv.sum_comp σ fun j => A (σ i) j

theorem degInvertible_submatrix {n : ℕ} (σ : Equiv.Perm (Fin n))
    (A : Matrix (Fin n) (Fin n) ℝ) :
    degInvertible (A.submatrix ⇑σ ⇑σ) ↔ degInvertible A := by
  constructor
  · intro h i
    have hs := h (σ.symm i)
    rwa [rowDeg_submatrix, Equiv.apply_symm_apply] at hs
  · intro h i
    rw [rowDeg_submatrix]
    exact h (σ i)

theorem degree_submatrix {n : ℕ} (σ : Equiv.Perm (Fin n)) (A : Matrix (Fin n) (Fin n) ℝ) :
    degree (A.submatrix ⇑σ ⇑σ) = (degree A).submatrix ⇑σ ⇑σ := by
  unfold degree
  rw [Matrix.submatrix_diagonal_equiv]
  refine congrArg Matrix.diagonal ?_
  funext i
  simp [rowDeg_submatrix, Function.comp]

theorem normAdjRaw_submatrix {n : ℕ} (σ : Equiv.Perm (Fin n)) (A : Matrix (Fin n) (Fin n) ℝ) :
    normAdjRaw (A.submatrix ⇑σ ⇑σ) = (normAdjRaw A).submatrix ⇑σ ⇑σ := by
  unfold normAdjRaw
  rw [degree_submatrix]
  have h1 : A.submatrix ⇑σ ⇑σ + 1 = (A + 1).submatrix ⇑σ ⇑σ := by
    ext i j
    simp [Matrix.submatrix_apply, Matrix.add_apply, Matrix.one_apply,
      Equiv.apply_eq_iff_eq]
  rw [h1]
  simp only [Matrix.submatrix_mul_equiv]

theorem submatrix_left_mul {a b c d : ℕ} (M : Matrix (Fin a) (Fin b) ℝ)
    (W : Matrix (Fin b) (Fin c) ℝ) (f : Fin d → Fin a) :
    M.submatrix f id * W = (M * W).submatrix f id := by
  ext i j
  simp [Matrix.mul_apply]

theorem biasRow_submatrix {n dout : ℕ} (b : Fin dout → ℝ) (σ : Equiv.Perm (Fin n)) :
    (biasRow n b).submatrix ⇑σ id = biasRow n b :=
  rfl

theorem norm_forward_submatrix {n din dout : ℕ} (σ : Equiv.Perm (Fin n))
    (A : Matrix (Fin n) (Fin n) ℝ) (lin : Linear din dout) (X : Matrix (Fin n) (Fin din) ℝ) :
    GCNLayerNorm.forward ⟨A.submatrix ⇑σ ⇑σ, normAdjRaw (A.submatrix ⇑σ ⇑σ), lin⟩
        (X.submatrix ⇑σ id) =
      (GCNLayerNorm.forward ⟨A, normAdjRaw A, lin⟩ X).submatrix ⇑σ id := by
  simp only [GCNLayerNorm.forward, Linear.apply]
  rw [normAdjRaw_submatrix]
  rw [Matrix.submatrix_mul_equiv]
  rw [submatrix_left_mul]
  ext i j
  simp [Matrix.submatrix_apply, Matrix.add_apply, biasRow]

/-- C7: the symmetric-normalized layer is permutation-equivariant: built
from the consistently relabelled adjacency `P A Pᵀ` and applied to the
relabelled features `P X` (same weights), it produces `P` applied to the
output of the layer built from `A` on `X`.  Stated over the `Option`
returned by the constructor: the two constructions also succeed or fail
together. -/
theorem C7_norm_layer_equivariant {n din dout : ℕ} (σ : Equiv.Perm (Fin n))
    (A : Matrix (Fin n) (Fin n) ℝ) (lin : Linear din dout)
    (X : Matrix (Fin n) (Fin din) ℝ) :
    Option.map (fun L => GCNLayerNorm.forward L (permMatrix σ * X))
        (mkGCNLayerNorm (permMatrix σ * A * (permMatrix σ)ᵀ)
          (permMatrix σ * A * (permMatrix σ)ᵀ) lin) =
      Option.map (fun L => permMatrix σ * GCNLayerNorm.forward L X)
        (mkGCNLayerNorm A A lin) := by
  rw [conj_permMatrix]
  simp only [permMatrix_mul]
  unfold mkGCNLayerNorm mkNormAdj
  by_cases h : degInvertible A
  · rw [if_pos ((degInvertible_submatrix σ A).mpr h), if_pos h]
    exact congrArg some (norm_forward_submatrix σ A lin X)
  · rw [if_neg fun hc => h ((degInvertible_submatrix σ A).mp hc), if_neg h]
    rfl

/-- C8: for a symmetric 0/1 adjacency matrix, the normalized adjacency
computed by the layer constructor is itself symmetric. -/
theorem C8_normAdj_symm {n : ℕ} (A : Matrix (Fin n) (Fin n) ℝ)
    (hsymm : Aᵀ = A) (h01 : ∀ i j, A i j = 0 ∨ A i j = 1) :
    Option.map Matrix.transpose (mkNormAdj A) = mkNormAdj A := by
  by_cases h : degInvertible A
  · have hsym : (normAdjRaw A)ᵀ = normAdjRaw A := by
      simp [normAdjRaw, degree, Matrix.transpose_mul, Matrix.diagonal_transpose,
        Matrix.transpose_add, Matrix.transpose_one, hsymm, Matrix.mul_assoc]
    rw [mkNormAdj, if_pos h]
    exact congrArg some hsym
  · simp only [mkNormAdj]
    rw [if_neg h]
    rfl

/-- Witness for C8 on the two-node single-edge graph. -/
theorem C8_witness : Option.map Matrix.transpose (mkNormAdj pathA) = mkNormAdj pathA :=
  C8_normAdj_symm pathA
    (by ext i j; fin_cases i <;> fin_cases j <;> simp [pathA])
    (by intro i j; fin_cases i <;> fin_cases j <;> simp [pathA])

/-- C10: the constructor argument `A` of the normalized layer influences
the layer only through its row count (the type index `n` here): with the
same globally bound `adj` and the same linear parameters, any two
adjacency arguments yield the same normalized adjacency and the same
forward outputs. -/
theorem C10_layer_ignores_A {n din dout : ℕ} (A1 A2 adj : Matrix (Fin n) (Fin n) ℝ)
    (lin : Linear din dout) (X : Matrix (Fin n) (Fin din) ℝ) :
    Option.map GCNLayerNorm.adj_norm (mkGCNLayerNorm A1 adj lin) =
        Option.map GCNLayerNorm.adj_norm (mkGCNLayerNorm A2 adj lin) ∧
      Option.map (fun L => GCNLayerNorm.forward L X) (mkGCNLayerNorm A1 adj lin) =
        Option.map (fun L => GCNLayerNorm.forward L X) (mkGCNLayerNorm A2 adj lin) := by
  unfold mkGCNLayerNorm
  cases mkNormAdj adj <;> exact ⟨rfl, rfl⟩

end GDL
